import Mathlib

/-!
Verification of the name-resolution and cross-reference caching engine of
`003_create_pdf.py`.

Python strings are modelled as `List Char`.  Python `None`-able values are
modelled with `Option`.  The filesystem (`os.path.exists`) is modelled as a
predicate `fs : List Char → Bool` on paths.  The single interactive
`input()` call is modelled by passing the response string as a parameter.
Python float arithmetic on similarity ratios is modelled with exact
rational arithmetic (`ℚ`); the scores that occur are small fractions, far
apart relative to double precision, so the strict comparisons against the
literal `0.7` agree with the float semantics.
-/

namespace FolhaCpj

/-- The set of characters matched by Python's `\s` (and removed by
`str.strip()`): the Unicode whitespace characters. -/
def isPySpace (c : Char) : Bool :=
  c.val = 0x20 ∨ (0x9 ≤ c.val ∧ c.val ≤ 0xd) ∨ (0x1c ≤ c.val ∧ c.val ≤ 0x1f) ∨
  c.val = 0x85 ∨ c.val = 0xa0 ∨ c.val = 0x1680 ∨
  (0x2000 ≤ c.val ∧ c.val ≤ 0x200a) ∨ c.val = 0x2028 ∨ c.val = 0x2029 ∨
  c.val = 0x202f ∨ c.val = 0x205f ∨ c.val = 0x3000

/-- Characterwise model of Python `str.lower()` (ASCII fragment): the
code points of `'A'`–`'Z'` are 65–90 and shift by 32. -/
def pyLowerChar (c : Char) : Char :=
  if 65 ≤ c.toNat ∧ c.toNat ≤ 90 then Char.ofNat (c.toNat + 32) else c

/-- Model of Python `str.lower()`. -/
def pyLower (s : List Char) : List Char := s.map pyLowerChar

/-- Model of Python `str.strip()`: drop whitespace from both ends. -/
def pyStrip (s : List Char) : List Char :=
  ((s.dropWhile isPySpace).reverse.dropWhile isPySpace).reverse

/-- `sanitize_filename`: `re.sub(r'[<>:"/\\|?*]', '', name)` then `.strip()`. -/
def sanitize_filename (name : List Char) : List Char :=
  pyStrip (name.filter (fun c =>
    ¬ (c = '<' ∨ c = '>' ∨ c = ':' ∨ c = '"' ∨ c = '/' ∨ c = '\\' ∨
       c = '|' ∨ c = '?' ∨ c = '*')))

/-- `re.sub(r'\s+', ' ', s)`, single pass: emit one `' '` at the first
character of each maximal whitespace run (tracked by the flag) and skip
the rest of the run. -/
def collapseGo (prevSpace : Bool) : List Char → List Char
  | [] => []
  | c :: cs =>
    if isPySpace c then
      (if prevSpace then collapseGo true cs else ' ' :: collapseGo true cs)
    else c :: collapseGo false cs

/-- `re.sub(r'\s+', ' ', s)`: every maximal run of whitespace becomes one
space. -/
def collapseWS (s : List Char) : List Char := collapseGo false s

/-- `normalize_name`:
`re.sub(r'\s+', ' ', name.lower().replace('-', ' ').replace('.', ' ')).strip()`. -/
def normalize_name (name : List Char) : List Char :=
  pyStrip (collapseWS
    (((pyLower name).map (fun c => if c = '-' then ' ' else c)).map
      (fun c => if c = '.' then ' ' else c)))

/-- The spec's description of normalization, assembled stage by stage:
lowercase; replace hyphens and periods each with a single space; collapse
every whitespace run to one space; trim.  (The code performs the two
replacements as two passes; the spec describes them as one.) -/
def normalizeContract (name : List Char) : List Char :=
  pyStrip (collapseWS
    ((pyLower name).map (fun c => if c = '-' ∨ c = '.' then ' ' else c)))

/-- Model of `os.path.join(a, b)` on POSIX for the cases that occur: an
absolute second component wins; otherwise a separator is inserted unless
`a` is empty or already ends in one. -/
def osPathJoin (a b : List Char) : List Char :=
  if b.head? = some '/' then b
  else if a = [] then b
  else if a.getLast? = some '/' then a ++ b
  else a ++ '/' :: b

/-!
## difflib.SequenceMatcher, specialised to `isjunk=None`, `autojunk=True`

This is the engine behind `similarity`.  The Python object protocol is
flattened into functions of the two sequences.
-/

/-- Default character used for (never reached) out-of-bounds list reads. -/
def defCh : Char := Char.ofNat 0

/-- The dict `b2j` built by `SequenceMatcher.__chain_b` maps each element
of `b` to the ascending list of its indices in `b`; we model the dict by
its lookup function (`dict.get(c, [])`, so a char absent from `b` yields
`[]`). -/
def b2jIndices (b : List Char) (c : Char) : List Nat :=
  (List.range b.length).filter (fun j => b.getD j defCh = c)

/-- The autojunk purge of `__chain_b`: when `len(b) >= 200`, elements
occurring more than `ntest = len(b) // 100 + 1` times are "popular" and
deleted from `b2j`.  (They are not added to `bjunk`.) -/
def isPopular (b : List Char) (c : Char) : Bool :=
  200 ≤ b.length ∧ b.length / 100 + 1 < (b2jIndices b c).length

/-- `self.b2j.get(a[i], nothing)` as read by `find_longest_match`, i.e.
after the autojunk purge. -/
def b2jGet (b : List Char) (c : Char) : List Nat :=
  if isPopular b c then [] else b2jIndices b c

/-- `self.bjunk.__contains__`: with `isjunk=None` the junk set is empty. -/
def bjunk : Char → Bool := fun _ => false

/-- The inner `for j in b2j.get(a[i], nothing)` loop of
`find_longest_match`, with Python's `continue` (`j < blo`) and `break`
(`j >= bhi`).  `prev` is `j2len` from the previous outer iteration;
`newj2len` is modelled as a `Nat → Nat` with `0` for absent keys (stored
values are always positive); the running best block rides along.
`k = newj2len[j] = j2len.get(j-1, 0) + 1`, and `j2len.get(-1, 0) = 0` is
rendered by the `j = 0` test. -/
def dpInner (blo bhi i : Nat) (prev : Nat → Nat) :
    List Nat → ((Nat → Nat) × Nat × Nat × Nat) → ((Nat → Nat) × Nat × Nat × Nat)
  | [], st => st
  | j :: js, (new, besti, bestj, bestsize) =>
    if j < blo then dpInner blo bhi i prev js (new, besti, bestj, bestsize)
    else if bhi ≤ j then (new, besti, bestj, bestsize)
    else
      let k := (if j = 0 then 0 else prev (j - 1)) + 1
      let new' : Nat → Nat := fun x => if x = j then k else new x
      if bestsize < k then
        dpInner blo bhi i prev js (new', i + 1 - k, j + 1 - k, k)
      else
        dpInner blo bhi i prev js (new', besti, bestj, bestsize)

/-- The `for i in range(alo, ahi)` loop of `find_longest_match`:
`j2len` starts empty and is replaced by `newj2len` after each iteration;
the best block starts at `(alo, blo, 0)`. -/
def dpOuter (a b : List Char) (alo ahi blo bhi : Nat) : Nat × Nat × Nat :=
  (List.range' alo (ahi - alo)).foldl
    (fun (st : (Nat → Nat) × Nat × Nat × Nat) i =>
      dpInner blo bhi i st.1 (b2jGet b (a.getD i defCh)) ((fun _ => 0), st.2))
    ((fun _ => 0), alo, blo, 0) |>.2

/-- Steps taken by a backward `while` extension loop of
`find_longest_match`:
`while besti > alo and bestj > blo and cond(b[bestj-1]) and a[besti-1] == b[bestj-1]`.
Fuel-based; fuel `besti` always suffices since `besti` decreases by one
per step. -/
def extBack (a b : List Char) (alo blo : Nat) (cond : Char → Bool) :
    Nat → Nat → Nat → Nat
  | _, _, 0 => 0
  | besti, bestj, fuel + 1 =>
    if alo < besti ∧ blo < bestj ∧ cond (b.getD (bestj - 1) defCh) = true ∧
        a.getD (besti - 1) defCh = b.getD (bestj - 1) defCh then
      1 + extBack a b alo blo cond (besti - 1) (bestj - 1) fuel
    else 0

/-- Steps taken by a forward `while` extension loop of
`find_longest_match`:
`while besti+bestsize < ahi and bestj+bestsize < bhi and cond(b[bestj+bestsize]) and a[besti+bestsize] == b[bestj+bestsize]`.
Fuel-based; fuel `ahi` always suffices since `besti + bestsize` grows by
one per step while staying below `ahi`. -/
def extFwd (a b : List Char) (ahi bhi : Nat) (cond : Char → Bool)
    (besti bestj : Nat) : Nat → Nat → Nat
  | _, 0 => 0
  | bestsize, fuel + 1 =>
    if besti + bestsize < ahi ∧ bestj + bestsize < bhi ∧
        cond (b.getD (bestj + bestsize) defCh) = true ∧
        a.getD (besti + bestsize) defCh = b.getD (bestj + bestsize) defCh then
      1 + extFwd a b ahi bhi cond besti bestj (bestsize + 1) fuel
    else 0

/-- `find_longest_match(alo, ahi, blo, bhi)`: the dict-based longest-block
search, then the two non-junk extension loops, then the two junk
extension loops (no-ops here since `bjunk` is empty, but kept for
fidelity). -/
def findLongestMatch (a b : List Char) (alo ahi blo bhi : Nat) : Nat × Nat × Nat :=
  let st := dpOuter a b alo ahi blo bhi
  let besti := st.1
  let bestj := st.2.1
  let bestsize := st.2.2
  let d1 := extBack a b alo blo (fun c => !bjunk c) besti bestj besti
  let besti := besti - d1
  let bestj := bestj - d1
  let bestsize := bestsize + d1
  let e1 := extFwd a b ahi bhi (fun c => !bjunk c) besti bestj bestsize ahi
  let bestsize := bestsize + e1
  let d2 := extBack a b alo blo bjunk besti bestj besti
  let besti := besti - d2
  let bestj := bestj - d2
  let bestsize := bestsize + d2
  let e2 := extFwd a b ahi bhi bjunk besti bestj bestsize ahi
  (besti, bestj, bestsize + e2)

/-- Total size of the blocks produced by `get_matching_blocks` over a
window — the `matches` count that `ratio` divides.  The Python code keeps
a queue of windows and only enqueues a sub-window when it is non-empty on
both sides (`alo < i and blo < j`, resp. `i+k < ahi and j+k < bhi`); the
order the queue is drained in cannot affect the sum, and the final merge
of adjacent blocks preserves it, so the sum is computed directly.
Fuel-based; the window sizes shrink strictly, so fuel
`len(a) + len(b) + 1` suffices. -/
def matchingSum (a b : List Char) : Nat → Nat → Nat → Nat → Nat → Nat
  | 0, _, _, _, _ => 0
  | fuel + 1, alo, ahi, blo, bhi =>
    let m := findLongestMatch a b alo ahi blo bhi
    let i := m.1
    let j := m.2.1
    let k := m.2.2
    if k = 0 then 0
    else
      k + (if alo < i ∧ blo < j then matchingSum a b fuel alo i blo j else 0)
        + (if i + k < ahi ∧ j + k < bhi then
            matchingSum a b fuel (i + k) ahi (j + k) bhi else 0)

/-- `SequenceMatcher.ratio()`: `2.0 * matches / length` with
`length = len(a) + len(b)`, and `1.0` when both sequences are empty
(`_calculate_ratio`).  Computed in exact rational arithmetic; the
quotient is built with `mkRat` (the same rational number as
`(2 * matches : ℚ) / length`, but kernel-computable). -/
def ratioQ (a b : List Char) : ℚ :=
  let nMatches := matchingSum a b (a.length + b.length + 1) 0 a.length 0 b.length
  let length := a.length + b.length
  if length = 0 then 1 else mkRat (2 * nMatches) length

/-- `similarity(str1, str2)`:
`SequenceMatcher(None, str1.lower(), str2.lower()).ratio()`. -/
def similarity (str1 str2 : List Char) : ℚ :=
  ratioQ (pyLower str1) (pyLower str2)

/-- Proof device: the DP fold of `dpOuter` for the sequence `y` against
itself over the full window, stopped after `t` rows. -/
def dpFoldY (y : List Char) (t : Nat) : (Nat → Nat) × Nat × Nat × Nat :=
  (List.range' 0 t).foldl
    (fun (st : (Nat → Nat) × Nat × Nat × Nat) i =>
      dpInner 0 y.length i st.1 (b2jGet y (y.getD i defCh)) ((fun _ => 0), st.2))
    ((fun _ => 0), 0, 0, 0)

/-- Proof device for the self-similarity theorem: the value the DP of
`find_longest_match` stores at key `j` after processing row `i`, for the
sequence `y` matched against itself over the full window — the length of
the chain of matches through unpurged characters ending at `(i, j)`. -/
def chainY (y : List Char) : Nat → Nat → Nat
  | 0, j => if j ∈ b2jGet y (y.getD 0 defCh) then 1 else 0
  | i + 1, j =>
    if j ∈ b2jGet y (y.getD (i + 1) defCh) then
      (if j = 0 then 0 else chainY y i (j - 1)) + 1
    else 0

/-!
## The picture index, the cross-reference cache, and the resolver

Python dicts are modelled as association lists with unique keys, together
with dict-faithful insert (update in place, append when new) and lookup.
Iterating `.items()` is iterating the list; dict truthiness is
non-emptiness of the list.
-/

/-- Python dict assignment `d[k] = v`: overwrite in place if the key is
present (keeping its position), else append. -/
def dictInsert {α β : Type} [DecidableEq α] (l : List (α × β)) (k : α) (v : β) :
    List (α × β) :=
  if (l.find? (fun p => p.1 = k)).isSome then
    l.map (fun p => if p.1 = k then (k, v) else p)
  else l ++ [(k, v)]

/-- Python dict lookup: `none` iff `k not in d`, mirroring the
`name in crossref_cache` test followed by `crossref_cache[name]`. -/
def dictGet {α β : Type} [DecidableEq α] (l : List (α × β)) (k : α) : Option β :=
  (l.find? (fun p => p.1 = k)).map (fun p => p.2)

/-- The supported picture extensions, in the order the exact-match stage
probes them: `['.jpg', '.jpeg', '.png', '.gif', '.webp']`. -/
def EXTENSIONS : List (List Char) :=
  [".jpg".toList, ".jpeg".toList, ".png".toList, ".gif".toList, ".webp".toList]

/-- The `'cpj'` source tag (an image from the primary directory). -/
def srcCpj : List Char := "cpj".toList

/-- The `'gigaza'` source tag (an image found via cache or fuzzy match). -/
def srcGigaza : List Char := "gigaza".toList

/-- One row of the cross-reference CSV: columns `cpj_name`, `gigaza_name`,
`accepted`. -/
structure CacheRow where
  cpj_name : List Char
  gigaza_name : List Char
  accepted : List Char

/-- `load_crossreference_cache`, over the parsed CSV rows (in file
order): `accepted == 'yes'` stores the gigaza name, `accepted == 'no'`
stores the rejection sentinel (Python `None`, modelled `none`), any other
value stores nothing.  The missing-file early return corresponds to the
empty row list. -/
def load_crossreference_cache (rows : List CacheRow) :
    List (List Char × Option (List Char)) :=
  rows.foldl (fun cache row =>
    if row.accepted = "yes".toList then
      dictInsert cache row.cpj_name (some row.gigaza_name)
    else if row.accepted = "no".toList then
      dictInsert cache row.cpj_name none
    else cache) []

/-- `filename.lower().endswith(('.jpg', '.jpeg', '.png', '.gif', '.webp'))`. -/
def hasPicExt (filename : List Char) : Bool :=
  EXTENSIONS.any (fun e => e.isSuffixOf (pyLower filename))

/-- `re.sub(r'\.(jpg|jpeg|png|gif|webp)$', '', filename, flags=re.IGNORECASE)`:
the pattern is anchored at the end and no alternative is a suffix of
another, so it strips exactly the final recognized extension (lowercasing
preserves length, so the ASCII extension can be dropped by length). -/
def stripPicExt (filename : List Char) : List Char :=
  match EXTENSIONS.find? (fun e => e.isSuffixOf (pyLower filename)) with
  | some e => filename.take (filename.length - e.length)
  | none => filename

/-- `get_available_pictures`, over the directory listing: map each
recognized picture's base name to `os.path.join(image_dir, filename)`.
The missing-directory early return corresponds to the empty listing. -/
def get_available_pictures (image_dir : List Char) (listing : List (List Char)) :
    List (List Char × List Char) :=
  listing.foldl (fun pictures filename =>
    if hasPicExt filename then
      dictInsert pictures (stripPicExt filename) (osPathJoin image_dir filename)
    else pictures) []

/-- The body of the fuzzy-matching loop of `find_image_file`: replace the
best candidate iff this candidate's score strictly exceeds the best score
so far. -/
def fuzzyStep (normalized_name : List Char) (acc : Option (List Char) × ℚ)
    (cand : List Char × List Char) : Option (List Char) × ℚ :=
  let score := similarity normalized_name (normalize_name cand.1)
  if score > acc.2 then (some cand.2, score) else acc

/-- The fuzzy-matching loop of `find_image_file`: fold the loop body over
the candidate pool, starting from `best_match = None`,
`best_score = 0.7` (the minimum threshold for matching; written
`mkRat 7 10`, the same rational as `7 / 10`, to stay
kernel-computable). -/
def fuzzyFold (normalized_name : List Char)
    (available_pictures : List (List Char × List Char)) :
    Option (List Char) × ℚ :=
  available_pictures.foldl (fuzzyStep normalized_name) (none, mkRat 7 10)

/-- Is the confirmation response affirmative?
`response == 'y' or response == 'yes'` for
`response = input(...).strip().lower()`. -/
def isAffirmative (response : List Char) : Bool :=
  pyLower (pyStrip response) = "y".toList ∨ pyLower (pyStrip response) = "yes".toList

/-- The fuzzy-matching stage of `find_image_file`: the
`if available_pictures:` block (dict truthiness = non-emptiness) together
with the trailing `return (None, None)`.  The `match` plus the
non-emptiness test render Python's `if best_match:` truthiness test on an
optional string; `response` models the one `input()` call. -/
def fuzzyStage (name : List Char) (available_pictures : List (List Char × List Char))
    (response : List Char) : Option (List Char) × Option (List Char) :=
  if available_pictures ≠ [] then
    match (fuzzyFold (normalize_name name) available_pictures).1 with
    | some best_match =>
      if best_match ≠ [] then
        if isAffirmative response then (some best_match, some srcGigaza)
        else (none, none)
      else (none, none)
    | none => (none, none)
  else (none, none)

/-- `find_image_file(name, image_dir, available_pictures, crossref_cache)`:
try an exact filename match on the sanitized name across `EXTENSIONS` in
order, then consult the cross-reference cache
(`if crossref_cache and name in crossref_cache:`), then fall through to
the fuzzy stage.  `fs` models `os.path.exists`; `response` models the
interactive confirmation input.  The result is the `(filepath, source)`
pair. -/
def find_image_file (name image_dir : List Char)
    (available_pictures : List (List Char × List Char))
    (crossref_cache : List (List Char × Option (List Char)))
    (fs : List Char → Bool) (response : List Char) :
    Option (List Char) × Option (List Char) :=
  let safe_name := sanitize_filename name
  match EXTENSIONS.find? (fun ext => fs (osPathJoin image_dir (safe_name ++ ext))) with
  | some ext => (some (osPathJoin image_dir (safe_name ++ ext)), some srcCpj)
  | none =>
    if crossref_cache ≠ [] ∧ (dictGet crossref_cache name).isSome then
      match dictGet crossref_cache name with
      | some none => (none, none)   -- previously rejected: skip fuzzy matching
      | some (some cached_filename) =>
        let filepath := osPathJoin image_dir cached_filename
        if fs filepath then (some filepath, some srcGigaza)
        else fuzzyStage name available_pictures response
      | none => fuzzyStage name available_pictures response  -- unreachable under the guard
    else fuzzyStage name available_pictures response

/-! ## Helper lemmas about the dict model -/

theorem dictGet_nil {α β : Type} [DecidableEq α] (k : α) :
    dictGet ([] : List (α × β)) k = none := rfl

theorem dictGet_ne_nil {α β : Type} [DecidableEq α] {l : List (α × β)} {k : α}
    {v : β} (h : dictGet l k = some v) : l ≠ [] := by
  intro hnil; subst hnil; simp [dictGet] at h

theorem find?_map_keep {α β : Type} [DecidableEq α] (l : List (α × β)) (k : α) (v : β)
    (h : (l.find? (fun p => p.1 = k)).isSome) :
    (l.map (fun p => if p.1 = k then (k, v) else p)).find? (fun p => p.1 = k) =
      some (k, v) := by
  induction l with
  | nil => simp at h
  | cons p t ih =>
    by_cases hp : p.1 = k
    · rw [List.map_cons, if_pos hp]
      exact List.find?_cons_of_pos _ (by simp)
    · rw [List.find?_cons_of_neg _ (by simp [hp])] at h
      rw [List.map_cons, if_neg hp, List.find?_cons_of_neg _ (by simp [hp])]
      exact ih h

theorem dictGet_dictInsert_self {α β : Type} [DecidableEq α] (l : List (α × β))
    (k : α) (v : β) : dictGet (dictInsert l k v) k = some v := by
  unfold dictInsert dictGet
  by_cases h : (l.find? (fun p => p.1 = k)).isSome
  · rw [if_pos h, find?_map_keep l k v h, Option.map_some']
  · rw [if_neg h]
    rw [Option.not_isSome_iff_eq_none] at h
    rw [List.find?_append, h, Option.none_or]
    rw [List.find?_cons_of_pos _ (by simp)]
    rfl

theorem dictGet_dictInsert_other {α β : Type} [DecidableEq α] (l : List (α × β))
    (k k' : α) (v : β) (hne : k' ≠ k) :
    dictGet (dictInsert l k v) k' = dictGet l k' := by
  unfold dictInsert dictGet
  by_cases h : (l.find? (fun p => p.1 = k)).isSome
  · rw [if_pos h]
    clear h
    induction l with
    | nil => simp
    | cons p t ih =>
      rw [List.map_cons]
      by_cases hpk : p.1 = k
      · rw [if_pos hpk]
        have hpk' : ¬ p.1 = k' := fun hc => hne (hc ▸ hpk)
        rw [List.find?_cons_of_neg _ (by simp [Ne.symm hne]),
          List.find?_cons_of_neg _ (by simp [hpk'])]
        exact ih
      · rw [if_neg hpk]
        by_cases hp' : p.1 = k'
        · rw [List.find?_cons_of_pos _ (by simp [hp']),
            List.find?_cons_of_pos _ (by simp [hp'])]
        · rw [List.find?_cons_of_neg _ (by simp [hp']),
            List.find?_cons_of_neg _ (by simp [hp'])]
          exact ih
  · rw [if_neg h, List.find?_append]
    have h1 : List.find? (fun p => decide (p.1 = k')) [(k, v)] = none := by
      rw [List.find?_cons_of_neg _ (by simp [Ne.symm hne])]
      rfl
    rw [h1]
    cases List.find? (fun p => decide (p.1 = k')) l <;> simp

/-! ## Branch equations for `find_image_file` -/

theorem ffi_exact (name image_dir : List Char)
    (available_pictures : List (List Char × List Char))
    (crossref_cache : List (List Char × Option (List Char)))
    (fs : List Char → Bool) (response : List Char) (ext : List Char)
    (h : EXTENSIONS.find?
      (fun e => fs (osPathJoin image_dir (sanitize_filename name ++ e))) = some ext) :
    find_image_file name image_dir available_pictures crossref_cache fs response =
      (some (osPathJoin image_dir (sanitize_filename name ++ ext)), some srcCpj) := by
  simp only [find_image_file, h]

theorem ffi_rejected (name image_dir : List Char)
    (available_pictures : List (List Char × List Char))
    (crossref_cache : List (List Char × Option (List Char)))
    (fs : List Char → Bool) (response : List Char)
    (h : EXTENSIONS.find?
      (fun e => fs (osPathJoin image_dir (sanitize_filename name ++ e))) = none)
    (hget : dictGet crossref_cache name = some none) :
    find_image_file name image_dir available_pictures crossref_cache fs response =
      (none, none) := by
  simp [find_image_file, h, hget, dictGet_ne_nil hget]

theorem ffi_cached (name image_dir : List Char)
    (available_pictures : List (List Char × List Char))
    (crossref_cache : List (List Char × Option (List Char)))
    (fs : List Char → Bool) (response : List Char) (g : List Char)
    (h : EXTENSIONS.find?
      (fun e => fs (osPathJoin image_dir (sanitize_filename name ++ e))) = none)
    (hget : dictGet crossref_cache name = some (some g)) :
    find_image_file name image_dir available_pictures crossref_cache fs response =
      (if fs (osPathJoin image_dir g) then
        (some (osPathJoin image_dir g), some srcGigaza)
      else fuzzyStage name available_pictures response) := by
  simp [find_image_file, h, hget, dictGet_ne_nil hget]

theorem ffi_nocache (name image_dir : List Char)
    (available_pictures : List (List Char × List Char))
    (crossref_cache : List (List Char × Option (List Char)))
    (fs : List Char → Bool) (response : List Char)
    (h : EXTENSIONS.find?
      (fun e => fs (osPathJoin image_dir (sanitize_filename name ++ e))) = none)
    (hget : dictGet crossref_cache name = none) :
    find_image_file name image_dir available_pictures crossref_cache fs response =
      fuzzyStage name available_pictures response := by
  simp [find_image_file, h, hget]

/-!
## C1: the exact-match stage always wins
-/

/-- C1: for every roster name whose sanitized form names an existing file
`{sanitized}.{ext}` in the primary directory for some supported
extension, `find_image_file` returns that file's path tagged `'cpj'`,
regardless of cache and candidate-pool contents; the extensions are
probed in the fixed order `[.jpg, .jpeg, .png, .gif, .webp]` and the
first extension whose file exists wins (`ext` below is by hypothesis the
first hit of `List.find?` over `EXTENSIONS`). -/
theorem exact_match_stage_wins (name image_dir : List Char)
    (available_pictures : List (List Char × List Char))
    (crossref_cache : List (List Char × Option (List Char)))
    (fs : List Char → Bool) (response : List Char) (ext : List Char)
    (h : EXTENSIONS.find?
      (fun e => fs (osPathJoin image_dir (sanitize_filename name ++ e))) = some ext) :
    find_image_file name image_dir available_pictures crossref_cache fs response =
      (some (osPathJoin image_dir (sanitize_filename name ++ ext)), some srcCpj) := by
  simp only [find_image_file, h]

/-- Witness for C1 at a concrete input: roster name `"Jo"`, a filesystem
containing exactly `d/Jo.jpg`, a cache that maps `"Jo"` to the rejection
sentinel and a pool with a perfect fuzzy candidate — the exact hit still
wins. -/
theorem exact_match_stage_wins_witness :
    find_image_file "Jo".toList "d".toList [("jo".toList, "d/jo.png".toList)]
        [("Jo".toList, none)] (fun p => p = "d/Jo.jpg".toList) "y".toList =
      (some (osPathJoin "d".toList (sanitize_filename "Jo".toList ++ ".jpg".toList)),
        some srcCpj) :=
  exact_match_stage_wins "Jo".toList "d".toList [("jo".toList, "d/jo.png".toList)]
    [("Jo".toList, none)] (fun p => p = "d/Jo.jpg".toList) "y".toList ".jpg".toList
    (by decide)

/-!
## C3: a cached rejection suppresses the fuzzy stage
-/

/-- C3: when no exact primary hit exists and the cache maps the exact
roster name to the rejection sentinel, `find_image_file` returns
`(None, None)`, and the result does not depend on the candidate pool or
on the interactive response — i.e. neither the similarity scorer nor the
confirmation step can influence (or be reached by) the resolution. -/
theorem rejection_persists (name image_dir : List Char)
    (available_pictures available_pictures' : List (List Char × List Char))
    (crossref_cache : List (List Char × Option (List Char)))
    (fs : List Char → Bool) (response response' : List Char)
    (hexact : ∀ ext ∈ EXTENSIONS,
      fs (osPathJoin image_dir (sanitize_filename name ++ ext)) = false)
    (hrej : dictGet crossref_cache name = some none) :
    find_image_file name image_dir available_pictures crossref_cache fs response =
        (none, none) ∧
      find_image_file name image_dir available_pictures crossref_cache fs response =
        find_image_file name image_dir available_pictures' crossref_cache fs response' := by
  have hfind : EXTENSIONS.find?
      (fun e => fs (osPathJoin image_dir (sanitize_filename name ++ e))) = none := by
    rw [List.find?_eq_none]
    intro e he
    simp [hexact e he]
  have hguard : crossref_cache ≠ [] ∧ (dictGet crossref_cache name).isSome :=
    ⟨dictGet_ne_nil hrej, by rw [hrej]; rfl⟩
  constructor
  · simp [find_image_file, hfind, hrej, hguard.1]
  · simp [find_image_file, hfind, hrej, hguard.1]

/-- Witness for C3 at a concrete input: `"Jane"` is cached as rejected;
the pool holds a perfect candidate and the response says yes, yet the
result is `(None, None)`. -/
theorem rejection_persists_witness :
    find_image_file "Jane".toList "d".toList [("jane".toList, "d/jane.jpg".toList)]
        [("Jane".toList, none)] (fun _ => false) "y".toList = (none, none) ∧
      find_image_file "Jane".toList "d".toList [("jane".toList, "d/jane.jpg".toList)]
        [("Jane".toList, none)] (fun _ => false) "y".toList =
      find_image_file "Jane".toList "d".toList [] [("Jane".toList, none)]
        (fun _ => false) "n".toList :=
  rejection_persists "Jane".toList "d".toList [("jane".toList, "d/jane.jpg".toList)] []
    [("Jane".toList, none)] (fun _ => false) "y".toList "n".toList
    (by decide) (by decide)

/-!
## C5 and C9: cache-loading semantics
-/

/-- C5: three-valued cache loading, stated row by row.  Appending a row
with `accepted == 'yes'` makes the cache map the row's exact `cpj_name`
to its `gigaza_name`; a row with `accepted == 'no'` maps it to the
rejection sentinel; a row with any other `accepted` value contributes no
cache entry at all — the whole cache is unchanged — and raises no error
(`load_crossreference_cache` is total). -/
theorem cache_three_valued (rows : List CacheRow) (row : CacheRow) :
    dictGet (load_crossreference_cache (rows ++ [row])) row.cpj_name =
      (if row.accepted = "yes".toList then some (some row.gigaza_name)
       else if row.accepted = "no".toList then some none
       else dictGet (load_crossreference_cache rows) row.cpj_name) ∧
    ((row.accepted ≠ "yes".toList ∧ row.accepted ≠ "no".toList) →
      load_crossreference_cache (rows ++ [row]) = load_crossreference_cache rows) := by
  have hstep : load_crossreference_cache (rows ++ [row]) =
      (if row.accepted = "yes".toList then
        dictInsert (load_crossreference_cache rows) row.cpj_name (some row.gigaza_name)
      else if row.accepted = "no".toList then
        dictInsert (load_crossreference_cache rows) row.cpj_name none
      else load_crossreference_cache rows) := by
    unfold load_crossreference_cache
    rw [List.foldl_append]
    rfl
  constructor
  · rw [hstep]
    by_cases hy : row.accepted = "yes".toList
    · rw [if_pos hy, if_pos hy, dictGet_dictInsert_self]
    · rw [if_neg hy, if_neg hy]
      by_cases hn : row.accepted = "no".toList
      · rw [if_pos hn, if_pos hn, dictGet_dictInsert_self]
      · rw [if_neg hn, if_neg hn]
  · intro h
    rw [hstep, if_neg h.1, if_neg h.2]

/-- Witness for C5's hypothesis-bearing conjunct: an unrecognized
`accepted` value leaves the cache unchanged. -/
theorem cache_three_valued_witness :
    load_crossreference_cache
        [⟨"A".toList, "g1".toList, "yes".toList⟩,
         ⟨"A".toList, "g2".toList, "maybe".toList⟩] =
      load_crossreference_cache [⟨"A".toList, "g1".toList, "yes".toList⟩] :=
  (cache_three_valued [⟨"A".toList, "g1".toList, "yes".toList⟩]
    ⟨"A".toList, "g2".toList, "maybe".toList⟩).2 (by decide)

/-- The decision made by the last row in file order whose `cpj_name` is
`k` and whose `accepted` value is recognized: the mapped gigaza name for
`'yes'`, the rejection sentinel for `'no'`. -/
def lastDecision (rows : List CacheRow) (k : List Char) : Option (Option (List Char)) :=
  ((rows.filter (fun r => r.cpj_name = k ∧
      (r.accepted = "yes".toList ∨ r.accepted = "no".toList))).getLast?).map
    (fun r => if r.accepted = "yes".toList then some r.gigaza_name else none)

/-- C9: with duplicate `cpj_name` keys, the last row in file order with a
recognized `accepted` value determines the cache entry — a later `'no'`
overwrites an earlier `'yes'` with the rejection sentinel and vice versa.
Stated as a full characterization of every lookup in the loaded cache. -/
theorem cache_last_row_wins (rows : List CacheRow) (k : List Char) :
    dictGet (load_crossreference_cache rows) k = lastDecision rows k := by
  induction rows using List.reverseRecOn with
  | nil => rfl
  | append_singleton rows row ih =>
    have hstep : load_crossreference_cache (rows ++ [row]) =
        (if row.accepted = "yes".toList then
          dictInsert (load_crossreference_cache rows) row.cpj_name (some row.gigaza_name)
        else if row.accepted = "no".toList then
          dictInsert (load_crossreference_cache rows) row.cpj_name none
        else load_crossreference_cache rows) := by
      unfold load_crossreference_cache
      rw [List.foldl_append]
      rfl
    have hlast : ∀ (hq : row.cpj_name = k ∧
        (row.accepted = "yes".toList ∨ row.accepted = "no".toList)),
        lastDecision (rows ++ [row]) k =
          some (if row.accepted = "yes".toList then some row.gigaza_name else none) := by
      intro hq
      unfold lastDecision
      rw [List.filter_append]
      have : List.filter (fun r => decide (r.cpj_name = k ∧
          (r.accepted = "yes".toList ∨ r.accepted = "no".toList))) [row] = [row] := by
        rw [List.filter_cons, if_pos (by simpa using hq)]
        rfl
      rw [this, List.getLast?_concat]
      rfl
    have hskip : ∀ (hq : ¬ (row.cpj_name = k ∧
        (row.accepted = "yes".toList ∨ row.accepted = "no".toList))),
        lastDecision (rows ++ [row]) k = lastDecision rows k := by
      intro hq
      unfold lastDecision
      rw [List.filter_append]
      have : List.filter (fun r => decide (r.cpj_name = k ∧
          (r.accepted = "yes".toList ∨ r.accepted = "no".toList))) [row] = [] := by
        rw [List.filter_cons, if_neg (by simpa using hq)]
        rfl
      rw [this, List.append_nil]
    by_cases hk : row.cpj_name = k
    · by_cases hy : row.accepted = "yes".toList
      · rw [hstep, if_pos hy, hk, dictGet_dictInsert_self, hlast ⟨hk, Or.inl hy⟩,
          if_pos hy]
      · by_cases hn : row.accepted = "no".toList
        · rw [hstep, if_neg hy, if_pos hn, hk, dictGet_dictInsert_self,
            hlast ⟨hk, Or.inr hn⟩, if_neg hy]
        · rw [hstep, if_neg hy, if_neg hn, hskip (by tauto), ih]
    · by_cases hy : row.accepted = "yes".toList
      · rw [hstep, if_pos hy, dictGet_dictInsert_other _ _ _ _ (by tauto),
          hskip (by tauto), ih]
      · by_cases hn : row.accepted = "no".toList
        · rw [hstep, if_neg hy, if_pos hn, dictGet_dictInsert_other _ _ _ _ (by tauto),
            hskip (by tauto), ih]
        · rw [hstep, if_neg hy, if_neg hn, hskip (by tauto), ih]

/-!
## Fuzzy-stage lemmas: the fold keeps a running strict maximum
-/

theorem fuzzyFold_score_mono (n : List Char) (l : List (List Char × List Char))
    (acc : Option (List Char) × ℚ) :
    acc.2 ≤ (l.foldl (fuzzyStep n) acc).2 := by
  induction l generalizing acc with
  | nil => exact le_refl _
  | cons d t ih =>
    rw [List.foldl_cons]
    refine le_trans ?_ (ih (fuzzyStep n acc d))
    unfold fuzzyStep
    dsimp only
    split
    · exact le_of_lt (by assumption)
    · exact le_refl _

theorem fuzzyFold_score_dom (n : List Char) (l : List (List Char × List Char))
    (acc : Option (List Char) × ℚ) :
    ∀ c ∈ l, similarity n (normalize_name c.1) ≤ (l.foldl (fuzzyStep n) acc).2 := by
  induction l generalizing acc with
  | nil => intro c hc; simp at hc
  | cons d t ih =>
    intro c hc
    rw [List.mem_cons] at hc
    rw [List.foldl_cons]
    rcases hc with rfl | hc
    · refine le_trans ?_ (fuzzyFold_score_mono n t (fuzzyStep n acc c))
      unfold fuzzyStep
      dsimp only
      split
      · exact le_refl _
      · exact le_of_not_lt (by assumption)
    · exact ih (fuzzyStep n acc d) c hc

theorem fuzzyFold_provenance (n : List Char) (l : List (List Char × List Char))
    (acc : Option (List Char) × ℚ) :
    l.foldl (fuzzyStep n) acc = acc ∨
      ∃ c ∈ l, (l.foldl (fuzzyStep n) acc).1 = some c.2 ∧
        (l.foldl (fuzzyStep n) acc).2 = similarity n (normalize_name c.1) ∧
        acc.2 < similarity n (normalize_name c.1) := by
  induction l generalizing acc with
  | nil => left; rfl
  | cons d t ih =>
    rw [List.foldl_cons]
    by_cases h : similarity n (normalize_name d.1) > acc.2
    · have hstep : fuzzyStep n acc d = (some d.2, similarity n (normalize_name d.1)) := by
        unfold fuzzyStep
        dsimp only
        rw [if_pos h]
      rcases ih (fuzzyStep n acc d) with heq | ⟨c, hc, h1, h2, h3⟩
      · right
        refine ⟨d, List.mem_cons_self d t, ?_, ?_, h⟩
        · rw [heq, hstep]
        · rw [heq, hstep]
      · right
        refine ⟨c, List.mem_cons_of_mem d hc, h1, h2, ?_⟩
        rw [hstep] at h3
        exact lt_trans h h3
    · have hstep : fuzzyStep n acc d = acc := by
        unfold fuzzyStep
        dsimp only
        rw [if_neg h]
      rw [hstep]
      rcases ih acc with heq | ⟨c, hc, h1, h2, h3⟩
      · left; exact heq
      · right; exact ⟨c, List.mem_cons_of_mem d hc, h1, h2, h3⟩

/-!
## C2: the fuzzy threshold is strict
-/

/-- The threshold constant of the fuzzy stage is the rational `7 / 10`. -/
theorem mkRat_seven_ten : mkRat 7 10 = 7 / 10 := by
  norm_num [Rat.mkRat_eq_div]

/-- C2: the fuzzy threshold is strict.  Part 1: whenever the fuzzy loop
ends with a candidate to offer, the offered pair
`(best_match, best_score)` comes from a pool candidate whose similarity
score equals `best_score`, exceeds `0.7` strictly, and is maximal over
the pool — in particular a candidate scoring exactly `0.7` is never the
one offered.  Part 2: whenever some candidate scores strictly above
`0.7`, a candidate is offered for confirmation. -/
theorem fuzzy_threshold_strict (n : List Char) (l : List (List Char × List Char)) :
    (∀ best s, fuzzyFold n l = (some best, s) →
      7 / 10 < s ∧
      (∃ c ∈ l, c.2 = best ∧ similarity n (normalize_name c.1) = s) ∧
      (∀ c ∈ l, similarity n (normalize_name c.1) ≤ s)) ∧
    ((∃ c ∈ l, 7 / 10 < similarity n (normalize_name c.1)) →
      (fuzzyFold n l).1.isSome) := by
  rw [← mkRat_seven_ten]
  constructor
  · intro best s h
    have h' : List.foldl (fuzzyStep n) (none, mkRat 7 10) l = (some best, s) := h
    rcases fuzzyFold_provenance n l (none, mkRat 7 10) with heq | ⟨c, hc, h1, h2, h3⟩
    · rw [h'] at heq
      simp at heq
    · rw [h'] at h1 h2
      have hbest : c.2 = best := (Option.some.inj h1).symm
      have h3' : mkRat 7 10 < similarity n (normalize_name c.1) := h3
      refine ⟨by rw [show s = (some best, s).2 from rfl, h2]; exact h3',
        ⟨c, hc, hbest, h2.symm⟩, ?_⟩
      intro d hd
      have := fuzzyFold_score_dom n l (none, mkRat 7 10) d hd
      rw [h'] at this
      exact this
  · rintro ⟨c, hc, hgt⟩
    rcases fuzzyFold_provenance n l (none, mkRat 7 10) with heq | ⟨d, _, h1, _, _⟩
    · have := fuzzyFold_score_dom n l (none, mkRat 7 10) c hc
      rw [heq] at this
      exact absurd hgt (not_lt_of_le this)
    · show (List.foldl (fuzzyStep n) (none, mkRat 7 10) l).1.isSome
      rw [h1]
      rfl

/-- Witness for C2: over normalized roster name `abcdefgxyz`, the
candidate `abcdefg123` scores exactly `0.7` (its patch of 7 matching
characters over total length 20), the candidate `abcdefgxy1` scores
`0.9`; the fold offers the latter with its score, and something is
offered. -/
theorem fuzzy_threshold_strict_witness :
    ((fuzzyFold "abcdefgxyz".toList
        [("abcdefg123".toList, "d/c1.jpg".toList),
         ("abcdefgxy1".toList, "d/c2.jpg".toList)]).1.isSome) ∧
      (7 / 10 < mkRat 9 10 ∧
        (∃ c ∈ [("abcdefg123".toList, "d/c1.jpg".toList),
                ("abcdefgxy1".toList, "d/c2.jpg".toList)],
          c.2 = "d/c2.jpg".toList ∧
          similarity "abcdefgxyz".toList (normalize_name c.1) = mkRat 9 10) ∧
        (∀ c ∈ [("abcdefg123".toList, "d/c1.jpg".toList),
                ("abcdefgxy1".toList, "d/c2.jpg".toList)],
          similarity "abcdefgxyz".toList (normalize_name c.1) ≤ mkRat 9 10)) :=
  ⟨(fuzzy_threshold_strict "abcdefgxyz".toList
      [("abcdefg123".toList, "d/c1.jpg".toList),
       ("abcdefgxy1".toList, "d/c2.jpg".toList)]).2
      ⟨("abcdefgxy1".toList, "d/c2.jpg".toList), by decide,
        by rw [← mkRat_seven_ten]; decide⟩,
   (fuzzy_threshold_strict "abcdefgxyz".toList
      [("abcdefg123".toList, "d/c1.jpg".toList),
       ("abcdefgxy1".toList, "d/c2.jpg".toList)]).1
      "d/c2.jpg".toList (mkRat 9 10) (by decide)⟩

/-!
## C6: stale cache entries are non-fatal
-/

/-- C6: with no exact primary hit and a cache entry mapping the roster
name to a concrete gigaza name, the resolver returns the mapped file
tagged `'gigaza'` when it exists, and otherwise falls through to the
fuzzy stage (rather than failing or returning `None` directly). -/
theorem stale_cache_falls_through (name image_dir : List Char)
    (available_pictures : List (List Char × List Char))
    (crossref_cache : List (List Char × Option (List Char)))
    (fs : List Char → Bool) (response : List Char) (gigazaName : List Char)
    (hexact : EXTENSIONS.find?
      (fun e => fs (osPathJoin image_dir (sanitize_filename name ++ e))) = none)
    (hcache : dictGet crossref_cache name = some (some gigazaName)) :
    find_image_file name image_dir available_pictures crossref_cache fs response =
      (if fs (osPathJoin image_dir gigazaName) then
        (some (osPathJoin image_dir gigazaName), some srcGigaza)
      else fuzzyStage name available_pictures response) := by
  have hne : crossref_cache ≠ [] := dictGet_ne_nil hcache
  simp [find_image_file, hexact, hcache, hne]

/-- Witness for C6 at a concrete stale entry: the cached file does not
exist, so resolution becomes exactly the fuzzy-stage computation. -/
theorem stale_cache_falls_through_witness :
    find_image_file "N".toList "d".toList [("n7".toList, "d/n7.jpg".toList)]
        [("N".toList, some "g.jpg".toList)] (fun _ => false) "y".toList =
      (if (fun (_ : List Char) => false) (osPathJoin "d".toList "g.jpg".toList) then
        (some (osPathJoin "d".toList "g.jpg".toList), some srcGigaza)
      else fuzzyStage "N".toList [("n7".toList, "d/n7.jpg".toList)] "y".toList) :=
  stale_cache_falls_through "N".toList "d".toList [("n7".toList, "d/n7.jpg".toList)]
    [("N".toList, some "g.jpg".toList)] (fun _ => false) "y".toList "g.jpg".toList
    (by decide) (by decide)

/-!
## C7: the confirmation step accepts exactly "y" / "yes"
-/

/-- C7: at the fuzzy confirmation prompt, the resolver returns the
offered candidate tagged `'gigaza'` exactly when the response, after
stripping and lowercasing, is `y` or `yes`; every other response
(including the empty string) yields `(None, None)` — no further
candidate is offered, whatever else is in the pool. -/
theorem confirmation_inputs (name image_dir : List Char)
    (available_pictures : List (List Char × List Char))
    (crossref_cache : List (List Char × Option (List Char)))
    (fs : List Char → Bool) (response : List Char) (best : List Char)
    (hexact : EXTENSIONS.find?
      (fun e => fs (osPathJoin image_dir (sanitize_filename name ++ e))) = none)
    (hcache : dictGet crossref_cache name = none)
    (hbest : (fuzzyFold (normalize_name name) available_pictures).1 = some best)
    (hne : best ≠ []) :
    (find_image_file name image_dir available_pictures crossref_cache fs response =
        (some best, some srcGigaza) ↔
      (pyLower (pyStrip response) = "y".toList ∨
        pyLower (pyStrip response) = "yes".toList)) ∧
    (¬ (pyLower (pyStrip response) = "y".toList ∨
        pyLower (pyStrip response) = "yes".toList) →
      find_image_file name image_dir available_pictures crossref_cache fs response =
        (none, none)) := by
  have hpics : available_pictures ≠ [] := by
    intro h0
    rw [h0] at hbest
    simp [fuzzyFold] at hbest
  have hstage : find_image_file name image_dir available_pictures crossref_cache fs
      response = fuzzyStage name available_pictures response := by
    simp [find_image_file, hexact, hcache]
  rw [hstage]
  unfold fuzzyStage
  rw [if_pos hpics, hbest]
  dsimp only
  rw [if_pos hne]
  by_cases haff : isAffirmative response = true
  · have hd : pyLower (pyStrip response) = "y".toList ∨
        pyLower (pyStrip response) = "yes".toList := by
      simpa [isAffirmative] using haff
    rw [if_pos haff]
    exact ⟨⟨fun _ => hd, fun _ => rfl⟩, fun hnd => absurd hd hnd⟩
  · have hd : ¬ (pyLower (pyStrip response) = "y".toList ∨
        pyLower (pyStrip response) = "yes".toList) := by
      simpa [isAffirmative] using haff
    rw [if_neg haff]
    refine ⟨⟨fun hcontra => ?_, fun hdis => absurd hdis hd⟩, fun _ => rfl⟩
    exact absurd (congrArg Prod.fst hcontra) (by simp)

/-- Witness for C7: a response of `" Y "` (affirmative after trimming and
lowercasing) returns the offered candidate tagged `'gigaza'`. -/
theorem confirmation_inputs_witness :
    find_image_file "abcdefgxyz".toList "d".toList
        [("abcdefgxy1".toList, "d/c2.jpg".toList)] [] (fun _ => false) " Y ".toList =
      (some "d/c2.jpg".toList, some srcGigaza) :=
  ((confirmation_inputs "abcdefgxyz".toList "d".toList
      [("abcdefgxy1".toList, "d/c2.jpg".toList)] [] (fun _ => false) " Y ".toList
      "d/c2.jpg".toList (by decide) (by decide) (by decide) (by decide)).1).mpr
    (by decide)

/-!
## C10: resolution results are well-formed
-/

theorem fuzzyStage_cases (name : List Char)
    (available_pictures : List (List Char × List Char)) (response : List Char)
    (fs : List Char → Bool) (hpics : ∀ c ∈ available_pictures, fs c.2 = true) :
    fuzzyStage name available_pictures response = (none, none) ∨
      (∃ p, fuzzyStage name available_pictures response = (some p, some srcGigaza) ∧
        fs p = true) := by
  unfold fuzzyStage
  by_cases hp : available_pictures ≠ []
  · rw [if_pos hp]
    cases hbest : (fuzzyFold (normalize_name name) available_pictures).1 with
    | none => left; rfl
    | some bm =>
      dsimp only
      by_cases hbm : bm ≠ []
      · rw [if_pos hbm]
        by_cases haff : isAffirmative response = true
        · right
          refine ⟨bm, by rw [if_pos haff], ?_⟩
          rcases fuzzyFold_provenance (normalize_name name) available_pictures
              (none, mkRat 7 10) with heq | ⟨c, hc, h1, _, _⟩
          · rw [show List.foldl (fuzzyStep (normalize_name name)) (none, mkRat 7 10)
                available_pictures = fuzzyFold (normalize_name name) available_pictures
                from rfl] at heq
            rw [heq] at hbest
            cases hbest
          · rw [show List.foldl (fuzzyStep (normalize_name name)) (none, mkRat 7 10)
                available_pictures = fuzzyFold (normalize_name name) available_pictures
                from rfl] at h1
            rw [h1] at hbest
            rw [← Option.some.inj hbest]
            exact hpics c hc
        · left
          rw [if_neg haff]
      · left
        rw [if_neg hbm]
  · rw [if_neg hp]
    left
    rfl

/-- C10: resolution results are well-formed.  Under the standing fact
that every pool candidate's path exists on the filesystem (true of the
pool `get_available_pictures` builds from the directory listing), the
result pair of `find_image_file` has a `none` path exactly when it has a
`none` source; and a returned path always exists on the filesystem, with
the source being exactly `'cpj'` or `'gigaza'`. -/
theorem resolution_wellformed (name image_dir : List Char)
    (available_pictures : List (List Char × List Char))
    (crossref_cache : List (List Char × Option (List Char)))
    (fs : List Char → Bool) (response : List Char)
    (hpics : ∀ c ∈ available_pictures, fs c.2 = true) :
    ((find_image_file name image_dir available_pictures crossref_cache fs
        response).1 = none ↔
      (find_image_file name image_dir available_pictures crossref_cache fs
        response).2 = none) ∧
    (∀ p, (find_image_file name image_dir available_pictures crossref_cache fs
        response).1 = some p →
      fs p = true ∧
        ((find_image_file name image_dir available_pictures crossref_cache fs
            response).2 = some srcCpj ∨
          (find_image_file name image_dir available_pictures crossref_cache fs
            response).2 = some srcGigaza)) := by
  have key : (∃ p, find_image_file name image_dir available_pictures crossref_cache
        fs response = (some p, some srcCpj) ∧ fs p = true) ∨
      find_image_file name image_dir available_pictures crossref_cache fs response =
        (none, none) ∨
      (∃ p, find_image_file name image_dir available_pictures crossref_cache fs
        response = (some p, some srcGigaza) ∧ fs p = true) := by
    cases hfind : EXTENSIONS.find?
        (fun e => fs (osPathJoin image_dir (sanitize_filename name ++ e))) with
    | some ext =>
      left
      refine ⟨osPathJoin image_dir (sanitize_filename name ++ ext),
        ffi_exact name image_dir available_pictures crossref_cache fs response ext
          hfind, ?_⟩
      simpa using List.find?_some hfind
    | none =>
      have hfuzzy := fuzzyStage_cases name available_pictures response fs hpics
      cases hget : dictGet crossref_cache name with
      | none =>
        rw [ffi_nocache name image_dir available_pictures crossref_cache fs response
          hfind hget]
        rcases hfuzzy with h | ⟨p, h, hfs⟩
        · right; left; exact h
        · right; right; exact ⟨p, h, hfs⟩
      | some v =>
        cases v with
        | none =>
          right; left
          exact ffi_rejected name image_dir available_pictures crossref_cache fs
            response hfind hget
        | some g =>
          rw [ffi_cached name image_dir available_pictures crossref_cache fs response
            g hfind hget]
          by_cases hfs : fs (osPathJoin image_dir g) = true
          · right; right
            exact ⟨osPathJoin image_dir g, by rw [if_pos hfs], hfs⟩
          · rw [if_neg hfs]
            rcases hfuzzy with h | ⟨p, h, hfsp⟩
            · right; left; exact h
            · right; right; exact ⟨p, h, hfsp⟩
  rcases key with ⟨p, hr, hfs⟩ | hr | ⟨p, hr, hfs⟩
  · rw [hr]
    refine ⟨by simp, fun q hq => ?_⟩
    have : p = q := Option.some.inj hq
    exact ⟨this ▸ hfs, Or.inl rfl⟩
  · rw [hr]
    exact ⟨by simp, fun q hq => by cases hq⟩
  · rw [hr]
    refine ⟨by simp, fun q hq => ?_⟩
    have : p = q := Option.some.inj hq
    exact ⟨this ▸ hfs, Or.inr rfl⟩

/-- Witness for C10 at a concrete input: a pool whose single candidate
exists on the filesystem; the resolver accepts it via fuzzy matching. -/
theorem resolution_wellformed_witness :
    ((find_image_file "abcdefgxyz".toList "d".toList
        [("abcdefgxy1".toList, "d/c2.jpg".toList)] []
        (fun p => p = "d/c2.jpg".toList) "y".toList).1 = none ↔
      (find_image_file "abcdefgxyz".toList "d".toList
        [("abcdefgxy1".toList, "d/c2.jpg".toList)] []
        (fun p => p = "d/c2.jpg".toList) "y".toList).2 = none) ∧
    (∀ p, (find_image_file "abcdefgxyz".toList "d".toList
        [("abcdefgxy1".toList, "d/c2.jpg".toList)] []
        (fun p => p = "d/c2.jpg".toList) "y".toList).1 = some p →
      decide (p = "d/c2.jpg".toList) = true ∧
        ((find_image_file "abcdefgxyz".toList "d".toList
            [("abcdefgxy1".toList, "d/c2.jpg".toList)] []
            (fun p => p = "d/c2.jpg".toList) "y".toList).2 = some srcCpj ∨
          (find_image_file "abcdefgxyz".toList "d".toList
            [("abcdefgxy1".toList, "d/c2.jpg".toList)] []
            (fun p => p = "d/c2.jpg".toList) "y".toList).2 = some srcGigaza)) :=
  resolution_wellformed "abcdefgxyz".toList "d".toList
    [("abcdefgxy1".toList, "d/c2.jpg".toList)] []
    (fun p => p = "d/c2.jpg".toList) "y".toList (by decide)

/-!
## C8: `normalize_name` matches its contract and is idempotent
-/

theorem toNat_ofNat_valid {n : Nat} (h : n.isValidChar) :
    (Char.ofNat n).toNat = n := by
  rw [Char.ofNat, dif_pos h]
  rfl

theorem pyLowerChar_idem (c : Char) :
    pyLowerChar (pyLowerChar c) = pyLowerChar c := by
  unfold pyLowerChar
  by_cases h : 65 ≤ c.toNat ∧ c.toNat ≤ 90
  · rw [if_pos h]
    have hvalid : (c.toNat + 32).isValidChar := Or.inl (by omega)
    have htn : (Char.ofNat (c.toNat + 32)).toNat = c.toNat + 32 :=
      toNat_ofNat_valid hvalid
    rw [if_neg (by rw [htn]; omega)]
  · rw [if_neg h, if_neg h]

theorem collapseGo_space_eq_space (l : List Char) :
    ∀ (b : Bool), ∀ c ∈ collapseGo b l, isPySpace c = true → c = ' ' := by
  induction l with
  | nil => intro b c hc; simp [collapseGo] at hc
  | cons d cs ih =>
    intro b c hc hsp
    by_cases hd : isPySpace d = true
    · rw [show collapseGo b (d :: cs) =
          (if isPySpace d then (if b then collapseGo true cs
            else ' ' :: collapseGo true cs) else d :: collapseGo false cs)
          from rfl, if_pos hd] at hc
      by_cases hb : b
      · rw [if_pos hb] at hc
        exact ih true c hc hsp
      · rw [if_neg hb] at hc
        rcases List.mem_cons.mp hc with rfl | hc'
        · rfl
        · exact ih true c hc' hsp
    · rw [show collapseGo b (d :: cs) =
          (if isPySpace d then (if b then collapseGo true cs
            else ' ' :: collapseGo true cs) else d :: collapseGo false cs)
          from rfl, if_neg hd] at hc
      rcases List.mem_cons.mp hc with rfl | hc'
      · exact absurd hsp hd
      · exact ih false c hc' hsp

theorem collapseGo_mem (l : List Char) :
    ∀ (b : Bool), ∀ c ∈ collapseGo b l, c = ' ' ∨ c ∈ l := by
  induction l with
  | nil => intro b c hc; simp [collapseGo] at hc
  | cons d cs ih =>
    intro b c hc
    by_cases hd : isPySpace d = true
    · rw [show collapseGo b (d :: cs) =
          (if isPySpace d then (if b then collapseGo true cs
            else ' ' :: collapseGo true cs) else d :: collapseGo false cs)
          from rfl, if_pos hd] at hc
      by_cases hb : b
      · rw [if_pos hb] at hc
        rcases ih true c hc with h | h
        · exact Or.inl h
        · exact Or.inr (List.mem_cons_of_mem d h)
      · rw [if_neg hb] at hc
        rcases List.mem_cons.mp hc with rfl | hc'
        · exact Or.inl rfl
        · rcases ih true c hc' with h | h
          · exact Or.inl h
          · exact Or.inr (List.mem_cons_of_mem d h)
    · rw [show collapseGo b (d :: cs) =
          (if isPySpace d then (if b then collapseGo true cs
            else ' ' :: collapseGo true cs) else d :: collapseGo false cs)
          from rfl, if_neg hd] at hc
      rcases List.mem_cons.mp hc with rfl | hc'
      · exact Or.inr (List.mem_cons_self c cs)
      · rcases ih false c hc' with h | h
        · exact Or.inl h
        · exact Or.inr (List.mem_cons_of_mem d h)

theorem collapseGo_true_head (l : List Char) :
    ∀ c, (collapseGo true l).head? = some c → isPySpace c = false := by
  induction l with
  | nil => intro c hc; simp [collapseGo] at hc
  | cons d cs ih =>
    intro c hc
    by_cases hd : isPySpace d = true
    · rw [show collapseGo true (d :: cs) =
          (if isPySpace d then collapseGo true cs else d :: collapseGo false cs)
          from rfl, if_pos hd] at hc
      exact ih c hc
    · rw [show collapseGo true (d :: cs) =
          (if isPySpace d then collapseGo true cs else d :: collapseGo false cs)
          from rfl, if_neg hd] at hc
      rw [← Option.some.inj hc]
      exact Bool.of_not_eq_true hd

theorem collapseGo_chain' (l : List Char) :
    ∀ (b : Bool), List.Chain'
      (fun a c => ¬(isPySpace a = true ∧ isPySpace c = true)) (collapseGo b l) := by
  induction l with
  | nil => intro b; simp [collapseGo]
  | cons d cs ih =>
    intro b
    by_cases hd : isPySpace d = true
    · rw [show collapseGo b (d :: cs) =
          (if isPySpace d then (if b then collapseGo true cs
            else ' ' :: collapseGo true cs) else d :: collapseGo false cs)
          from rfl, if_pos hd]
      by_cases hb : b
      · rw [if_pos hb]
        exact ih true
      · rw [if_neg hb]
        refine List.chain'_cons'.mpr ⟨?_, ih true⟩
        intro y hy
        rintro ⟨-, hy'⟩
        rw [collapseGo_true_head cs y hy] at hy'
        cases hy'
    · rw [show collapseGo b (d :: cs) =
          (if isPySpace d then (if b then collapseGo true cs
            else ' ' :: collapseGo true cs) else d :: collapseGo false cs)
          from rfl, if_neg hd]
      refine List.chain'_cons'.mpr ⟨?_, ih false⟩
      intro y _
      rintro ⟨hd', -⟩
      exact hd hd'

theorem collapseGo_fix (l : List Char)
    (hmem : ∀ c ∈ l, isPySpace c = true → c = ' ')
    (hch : List.Chain'
      (fun a c => ¬(isPySpace a = true ∧ isPySpace c = true)) l) :
    collapseGo false l = l ∧
      ((∀ c, l.head? = some c → isPySpace c = false) → collapseGo true l = l) := by
  induction l with
  | nil => exact ⟨rfl, fun _ => rfl⟩
  | cons d cs ih =>
    obtain ⟨hr, hch'⟩ := List.chain'_cons'.mp hch
    have hmem' : ∀ c ∈ cs, isPySpace c = true → c = ' ' :=
      fun c hc => hmem c (List.mem_cons_of_mem d hc)
    obtain ⟨ihA, ihB⟩ := ih hmem' hch'
    constructor
    · by_cases hd : isPySpace d = true
      · have hd' : d = ' ' := hmem d (List.mem_cons_self d cs) hd
        rw [show collapseGo false (d :: cs) =
            (if isPySpace d then ' ' :: collapseGo true cs
              else d :: collapseGo false cs) from rfl, if_pos hd]
        have hcs : ∀ c, cs.head? = some c → isPySpace c = false := by
          intro c hc
          have := hr c hc
          rw [hd] at this
          by_cases h : isPySpace c = true
          · exact absurd ⟨rfl, h⟩ this
          · exact Bool.of_not_eq_true h
        rw [ihB hcs, hd']
      · rw [show collapseGo false (d :: cs) =
            (if isPySpace d then ' ' :: collapseGo true cs
              else d :: collapseGo false cs) from rfl, if_neg hd, ihA]
    · intro hhead
      have hd : isPySpace d = false := hhead d rfl
      rw [show collapseGo true (d :: cs) =
          (if isPySpace d then collapseGo true cs
            else d :: collapseGo false cs) from rfl,
        if_neg (by rw [hd]; exact Bool.false_ne_true), ihA]

theorem head?_dropWhile_false (p : Char → Bool) (l : List Char) :
    ∀ c, ((l.dropWhile p).head? = some c) → p c = false := by
  induction l with
  | nil => intro c hc; cases hc
  | cons a l ih =>
    intro c hc
    by_cases ha : p a = true
    · rw [List.dropWhile_cons_of_pos ha] at hc
      exact ih c hc
    · rw [List.dropWhile_cons_of_neg ha] at hc
      rw [← Option.some.inj hc]
      exact Bool.of_not_eq_true ha

theorem pyStrip_prefix_dropWhile (l : List Char) :
    pyStrip l <+: l.dropWhile isPySpace := by
  unfold pyStrip
  have h : List.dropWhile isPySpace (l.dropWhile isPySpace).reverse <:+
      (l.dropWhile isPySpace).reverse := List.dropWhile_suffix isPySpace
  have h2 := List.reverse_prefix.mpr h
  rwa [List.reverse_reverse] at h2

theorem pyStrip_within (l : List Char) : pyStrip l <:+: l :=
  List.IsInfix.trans ( List.IsPrefix.isInfix (pyStrip_prefix_dropWhile l))
    ( List.IsSuffix.isInfix (List.dropWhile_suffix isPySpace))

theorem pyStrip_head (l : List Char) :
    ∀ c, (pyStrip l).head? = some c → isPySpace c = false := by
  intro c hc
  obtain ⟨t, ht⟩ := pyStrip_prefix_dropWhile l
  have : (l.dropWhile isPySpace).head? = some c := by
    rw [← ht, List.head?_append, hc]
    rfl
  exact head?_dropWhile_false isPySpace l c this

theorem pyStrip_last (l : List Char) :
    ∀ c, (pyStrip l).getLast? = some c → isPySpace c = false := by
  intro c hc
  unfold pyStrip at hc
  rw [List.getLast?_reverse] at hc
  exact head?_dropWhile_false isPySpace
    ((l.dropWhile isPySpace).reverse) c hc

theorem dropWhile_eq_self_of_head (p : Char → Bool) (l : List Char)
    (h : ∀ c, l.head? = some c → p c = false) : l.dropWhile p = l := by
  cases l with
  | nil => rfl
  | cons a l =>
    have := h a rfl
    rw [List.dropWhile_cons_of_neg (by rw [this]; exact Bool.false_ne_true)]

theorem pyStrip_fix (l : List Char)
    (hhead : ∀ c, l.head? = some c → isPySpace c = false)
    (hlast : ∀ c, l.getLast? = some c → isPySpace c = false) :
    pyStrip l = l := by
  unfold pyStrip
  rw [dropWhile_eq_self_of_head isPySpace l hhead]
  rw [dropWhile_eq_self_of_head isPySpace l.reverse
    (by intro c hc; rw [List.head?_reverse] at hc; exact hlast c hc)]
  exact List.reverse_reverse l

/-- Every character of `normalize_name x` is lowercase-stable, is not a
hyphen or period, and is a plain space if it is whitespace at all. -/
theorem normalize_name_mem (x : List Char) :
    ∀ c ∈ normalize_name x,
      pyLowerChar c = c ∧ c ≠ '-' ∧ c ≠ '.' ∧ (isPySpace c = true → c = ' ') := by
  intro c hc
  have hc1 : c ∈ collapseWS
      (((pyLower x).map (fun c => if c = '-' then ' ' else c)).map
        (fun c => if c = '.' then ' ' else c)) :=
    (pyStrip_within _).subset hc
  have hspace : isPySpace c = true → c = ' ' :=
    collapseGo_space_eq_space _ false c hc1
  rcases collapseGo_mem _ false c hc1 with rfl | hz
  · exact ⟨by decide, by decide, by decide, fun _ => rfl⟩
  · obtain ⟨c1, hc1', rfl⟩ := List.mem_map.mp hz
    obtain ⟨c0, hc0', rfl⟩ := List.mem_map.mp hc1'
    obtain ⟨cx, _, rfl⟩ := List.mem_map.mp hc0'
    by_cases hdash : pyLowerChar cx = '-'
    · rw [hdash]
      refine ⟨by decide, by decide, by decide, fun _ => rfl⟩
    · rw [if_neg hdash]
      rw [if_neg hdash] at hspace
      by_cases hdot : pyLowerChar cx = '.'
      · rw [if_pos hdot]
        exact ⟨by decide, by decide, by decide, fun _ => rfl⟩
      · rw [if_neg hdot]
        rw [if_neg hdot] at hspace
        exact ⟨pyLowerChar_idem cx, hdash, hdot, hspace⟩

theorem map_id_of_mem {f : Char → Char} {l : List Char}
    (h : ∀ c ∈ l, f c = c) : l.map f = l := by
  rw [List.map_congr_left h]
  simp

/-- C8: `normalize_name` equals the contract's stage-by-stage description
(lowercase, then hyphens and periods to single spaces, then collapse each
whitespace run to one space, then trim), and it is idempotent. -/
theorem normalize_contract_and_idempotent :
    (∀ x, normalize_name x = normalizeContract x) ∧
    (∀ x, normalize_name (normalize_name x) = normalize_name x) := by
  constructor
  · intro x
    unfold normalize_name normalizeContract
    congr 2
    rw [List.map_map]
    apply List.map_congr_left
    intro c _
    by_cases h1 : c = '-'
    · subst h1; simp
    · by_cases h2 : c = '.'
      · subst h2; simp
      · simp [h1, h2]
  · intro x
    have hmem := normalize_name_mem x
    set y := normalize_name x with hy
    have hylower : pyLower y = y :=
      map_id_of_mem (fun c hc => (hmem c hc).1)
    have hchain : List.Chain'
        (fun a c => ¬(isPySpace a = true ∧ isPySpace c = true)) y := by
      rw [hy]
      unfold normalize_name
      exact List.Chain'.infix (collapseGo_chain' _ false) (pyStrip_within _)
    have hspace : ∀ c ∈ y, isPySpace c = true → c = ' ' :=
      fun c hc => (hmem c hc).2.2.2
    show pyStrip (collapseWS
      (((pyLower y).map (fun c => if c = '-' then ' ' else c)).map
        (fun c => if c = '.' then ' ' else c))) = y
    rw [hylower,
      map_id_of_mem (fun c hc => if_neg ((hmem c hc).2.1)),
      map_id_of_mem (fun c hc => if_neg ((hmem c hc).2.2.1))]
    have hcoll : collapseWS y = y := (collapseGo_fix y hspace hchain).1
    rw [hcoll]
    apply pyStrip_fix
    · intro c hc
      rw [hy] at hc
      exact pyStrip_head _ c hc
    · intro c hc
      rw [hy] at hc
      exact pyStrip_last _ c hc

/-!
## C4: the similarity scorer — self-similarity and (a)symmetry

The DP of `find_longest_match` run on `y` against itself keeps its best
block on the diagonal; the extension loops then stretch any aligned block
to the whole sequence, so the top-level match is everything and the ratio
is `1`.  Symmetry, by contrast, is refuted by a concrete pair.
-/

theorem mem_b2jGet {y : List Char} {c : Char} {j : Nat} :
    j ∈ b2jGet y c ↔
      isPopular y c = false ∧ j < y.length ∧ y.getD j defCh = c := by
  unfold b2jGet b2jIndices
  by_cases hp : isPopular y c
  · simp [hp]
  · simp [hp, List.mem_filter, List.mem_range, Bool.of_not_eq_true hp]

theorem mem_b2jGet_of_getD {y : List Char} {c : Char} {j i : Nat}
    (hj : j ∈ b2jGet y c) (hi : i < y.length) (hgd : y.getD i defCh = c) :
    i ∈ b2jGet y c := by
  obtain ⟨hp, -, -⟩ := mem_b2jGet.mp hj
  exact mem_b2jGet.mpr ⟨hp, hi, hgd⟩

theorem chainY_le (y : List Char) :
    ∀ i j, chainY y i j ≤ i + 1 ∧ chainY y i j ≤ j + 1 := by
  intro i
  induction i with
  | zero =>
    intro j
    unfold chainY
    split
    · exact ⟨le_refl 1, Nat.le_add_left 1 j⟩
    · exact ⟨Nat.zero_le _, Nat.zero_le _⟩
  | succ i ih =>
    intro j
    unfold chainY
    split
    · cases j with
      | zero => simp
      | succ j' =>
        have := ih j'
        rw [if_neg (Nat.succ_ne_zero j'), Nat.succ_sub_one]
        omega
    · exact ⟨Nat.zero_le _, Nat.zero_le _⟩

theorem chainY_not_mem {y : List Char} {i j : Nat}
    (h : j ∉ b2jGet y (y.getD i defCh)) : chainY y i j = 0 := by
  cases i with
  | zero => unfold chainY; rw [if_neg h]
  | succ i => unfold chainY; rw [if_neg h]

theorem chainY_diag_dom (y : List Char) :
    ∀ i, i < y.length → ∀ j, chainY y i j ≤ chainY y (min i j) (min i j) := by
  intro i
  induction i with
  | zero =>
    intro hi j
    rw [Nat.zero_min]
    by_cases hj : j ∈ b2jGet y (y.getD 0 defCh)
    · have h0 : 0 ∈ b2jGet y (y.getD 0 defCh) := mem_b2jGet_of_getD hj hi rfl
      unfold chainY
      rw [if_pos hj, if_pos h0]
    · rw [chainY_not_mem hj]
      exact Nat.zero_le _
  | succ i ih =>
    intro hi j
    by_cases hj : j ∈ b2jGet y (y.getD (i + 1) defCh)
    · cases j with
      | zero =>
        rw [Nat.min_zero]
        obtain ⟨-, -, hgd⟩ := mem_b2jGet.mp hj
        have hn : 0 < y.length := Nat.lt_of_le_of_lt (Nat.zero_le _) hi
        have h0 : 0 ∈ b2jGet y (y.getD 0 defCh) := by
          rw [hgd]
          exact mem_b2jGet_of_getD hj hn hgd
        rw [show chainY y (i + 1) 0 =
          (if 0 ∈ b2jGet y (y.getD (i + 1) defCh) then
            (if (0 : Nat) = 0 then 0 else chainY y i (0 - 1)) + 1 else 0) from rfl]
        rw [show chainY y 0 0 =
          (if 0 ∈ b2jGet y (y.getD 0 defCh) then 1 else 0) from rfl]
        rw [if_pos hj, if_pos h0]
        simp
      | succ j' =>
        obtain ⟨-, hjlt, hgd⟩ := mem_b2jGet.mp hj
        have hstep : chainY y (i + 1) (j' + 1) = chainY y i j' + 1 := by
          rw [show chainY y (i + 1) (j' + 1) =
            (if j' + 1 ∈ b2jGet y (y.getD (i + 1) defCh) then
              (if j' + 1 = 0 then 0 else chainY y i (j' + 1 - 1)) + 1 else 0)
            from rfl]
          rw [if_pos hj, if_neg (Nat.succ_ne_zero j'), Nat.succ_sub_one]
        rw [hstep, Nat.succ_min_succ]
        set m := min i j' with hm
        have hmlt : m + 1 < y.length := by
          rcases min_cases i j' with ⟨h1, -⟩ | ⟨h1, -⟩
          · rw [hm, h1]; exact hi
          · rw [hm, h1]; exact hjlt
        have hgdm : y.getD (m + 1) defCh = y.getD (i + 1) defCh := by
          rcases min_cases i j' with ⟨h1, -⟩ | ⟨h1, -⟩
          · rw [hm, h1]
          · rw [hm, h1, hgd]
        have hmem : m + 1 ∈ b2jGet y (y.getD (m + 1) defCh) := by
          rw [hgdm]
          exact mem_b2jGet_of_getD hj hmlt hgdm
        have hdiag : chainY y (m + 1) (m + 1) = chainY y m m + 1 := by
          rw [show chainY y (m + 1) (m + 1) =
            (if m + 1 ∈ b2jGet y (y.getD (m + 1) defCh) then
              (if m + 1 = 0 then 0 else chainY y m (m + 1 - 1)) + 1 else 0)
            from rfl]
          rw [if_pos hmem, if_neg (Nat.succ_ne_zero m), Nat.succ_sub_one]
        rw [hdiag]
        have hile : i < y.length := Nat.lt_of_succ_lt hi
        have := ih hile j'
        rw [← hm] at this
        omega
    · rw [chainY_not_mem hj]
      exact Nat.zero_le _

theorem dpInner_j2len (n i : Nat) (prev : Nat → Nat) :
    ∀ (L : List Nat) (new : Nat → Nat) (bi bj bs : Nat),
      (∀ j ∈ L, j < n) →
      ∀ j0, (dpInner 0 n i prev L (new, bi, bj, bs)).1 j0 =
        (if j0 ∈ L then (if j0 = 0 then 0 else prev (j0 - 1)) + 1 else new j0) := by
  intro L
  induction L with
  | nil =>
    intro new bi bj bs hL j0
    simp [dpInner]
  | cons j L' ih =>
    intro new bi bj bs hL j0
    have hjn : j < n := hL j (List.mem_cons_self j L')
    have h1 : ¬ j < 0 := Nat.not_lt_zero j
    have h2 : ¬ n ≤ j := Nat.not_le.mpr hjn
    have hL' : ∀ j' ∈ L', j' < n := fun j' hj' => hL j' (List.mem_cons_of_mem j hj')
    simp only [dpInner, if_neg h1, if_neg h2]
    by_cases hupd : bs < (if j = 0 then 0 else prev (j - 1)) + 1
    · rw [if_pos hupd, ih _ _ _ _ hL' j0]
      by_cases hj0 : j0 ∈ L'
      · rw [if_pos hj0, if_pos (List.mem_cons_of_mem j hj0)]
      · rw [if_neg hj0]
        by_cases hj0j : j0 = j
        · subst hj0j
          rw [if_pos rfl, if_pos (List.mem_cons_self j0 L')]
        · rw [if_neg hj0j, if_neg (by simp [hj0, hj0j])]
    · rw [if_neg hupd, ih _ _ _ _ hL' j0]
      by_cases hj0 : j0 ∈ L'
      · rw [if_pos hj0, if_pos (List.mem_cons_of_mem j hj0)]
      · rw [if_neg hj0]
        by_cases hj0j : j0 = j
        · subst hj0j
          rw [if_pos rfl, if_pos (List.mem_cons_self j0 L')]
        · rw [if_neg hj0j, if_neg (by simp [hj0, hj0j])]

theorem dpInner_best (y : List Char) (i : Nat) (hi : i < y.length)
    (prev : Nat → Nat)
    (hprev : ∀ j, j ∈ b2jGet y (y.getD i defCh) →
      (if j = 0 then 0 else prev (j - 1)) + 1 = chainY y i j) :
    ∀ (L : List Nat) (new : Nat → Nat) (bi bj bs : Nat),
      (∀ j ∈ L, j ∈ b2jGet y (y.getD i defCh)) →
      L.Pairwise (· < ·) →
      bi = bj → bi + bs ≤ i + 1 →
      (∀ p, p < i → chainY y p p ≤ bs) →
      (i ∈ L ∨ chainY y i i ≤ bs) →
      ((dpInner 0 y.length i prev L (new, bi, bj, bs)).2.1 =
        (dpInner 0 y.length i prev L (new, bi, bj, bs)).2.2.1) ∧
      ((dpInner 0 y.length i prev L (new, bi, bj, bs)).2.1 +
        (dpInner 0 y.length i prev L (new, bi, bj, bs)).2.2.2 ≤ i + 1) ∧
      (∀ p, p < i + 1 → chainY y p p ≤
        (dpInner 0 y.length i prev L (new, bi, bj, bs)).2.2.2) := by
  intro L
  induction L with
  | nil =>
    intro new bi bj bs hmem hsort hal hsum hdom hphase
    refine ⟨hal, hsum, fun p hp => ?_⟩
    rcases Nat.lt_succ_iff_lt_or_eq.mp hp with hp' | rfl
    · exact hdom p hp'
    · rcases hphase with h | h
      · cases h
      · exact h
  | cons j L' ih =>
    intro new bi bj bs hmem hsort hal hsum hdom hphase
    have hjmem : j ∈ b2jGet y (y.getD i defCh) := hmem j (List.mem_cons_self j L')
    have hjn : j < y.length := (mem_b2jGet.mp hjmem).2.1
    have h1 : ¬ j < 0 := Nat.not_lt_zero j
    have h2 : ¬ y.length ≤ j := Nat.not_le.mpr hjn
    have hmem' : ∀ j' ∈ L', j' ∈ b2jGet y (y.getD i defCh) :=
      fun j' hj' => hmem j' (List.mem_cons_of_mem j hj')
    have hsort' : L'.Pairwise (· < ·) := hsort.of_cons
    have hk : (if j = 0 then 0 else prev (j - 1)) + 1 = chainY y i j :=
      hprev j hjmem
    simp only [dpInner, if_neg h1, if_neg h2]
    by_cases hupd : bs < (if j = 0 then 0 else prev (j - 1)) + 1
    · rw [if_pos hupd]
      rw [hk] at hupd
      have hji : j = i := by
        by_contra hne
        rcases Nat.lt_or_ge j i with hlt | hge
        · have hd1 : chainY y i j ≤ chainY y j j := by
            have := chainY_diag_dom y i hi j
            rwa [min_eq_right (Nat.le_of_lt hlt)] at this
          exact absurd hupd (not_lt_of_le (le_trans hd1 (hdom j hlt)))
        · have hgt : i < j := Nat.lt_of_le_of_ne hge (Ne.symm hne)
          have hiiLbs : chainY y i i ≤ bs := by
            rcases hphase with hmemL | h
            · rcases List.mem_cons.mp hmemL with rfl | hmemL'
              · exact absurd rfl hne
              · have := (List.pairwise_cons.mp hsort).1 i hmemL'
                omega
            · exact h
          have hd1 : chainY y i j ≤ chainY y i i := by
            have := chainY_diag_dom y i hi j
            rwa [min_eq_left (Nat.le_of_lt hgt)] at this
          exact absurd hupd (not_lt_of_le (le_trans hd1 hiiLbs))
      subst hji
      have hkle : chainY y j j ≤ j + 1 := (chainY_le y j j).1
      have happ := ih (fun x => if x = j then
          (if j = 0 then 0 else prev (j - 1)) + 1 else new x)
        (j + 1 - ((if j = 0 then 0 else prev (j - 1)) + 1))
        (j + 1 - ((if j = 0 then 0 else prev (j - 1)) + 1))
        ((if j = 0 then 0 else prev (j - 1)) + 1)
        hmem' hsort' rfl (by rw [hk]; omega)
        (fun p hp => by rw [hk]; exact le_trans (hdom p hp) (Nat.le_of_lt hupd))
        (Or.inr (by rw [hk]))
      exact happ
    · rw [if_neg hupd]
      rw [hk] at hupd
      have hphase' : i ∈ L' ∨ chainY y i i ≤ bs := by
        by_cases hji : j = i
        · subst hji
          exact Or.inr (Nat.le_of_not_lt hupd)
        · rcases hphase with hmemL | h
          · rcases List.mem_cons.mp hmemL with rfl | hmemL'
            · exact absurd rfl hji
            · exact Or.inl hmemL'
          · exact Or.inr h
      exact ih _ bi bj bs hmem' hsort' hal hsum hdom hphase'

theorem dpFoldY_inv (y : List Char) :
    ∀ t, t ≤ y.length →
      (∀ j0, (dpFoldY y t).1 j0 = (if t = 0 then 0 else chainY y (t - 1) j0)) ∧
      (dpFoldY y t).2.1 = (dpFoldY y t).2.2.1 ∧
      (dpFoldY y t).2.1 + (dpFoldY y t).2.2.2 ≤ t ∧
      (∀ p, p < t → chainY y p p ≤ (dpFoldY y t).2.2.2) := by
  intro t
  induction t with
  | zero =>
    intro _
    exact ⟨fun j0 => rfl, rfl, Nat.le_refl 0, fun p hp => absurd hp (Nat.not_lt_zero p)⟩
  | succ t iht =>
    intro ht
    have ht' : t ≤ y.length := Nat.le_of_succ_le ht
    have htlt : t < y.length := ht
    obtain ⟨hj2, hal, hsum, hdom⟩ := iht ht'
    have hfold : dpFoldY y (t + 1) = dpInner 0 y.length t (dpFoldY y t).1
        (b2jGet y (y.getD t defCh)) ((fun _ => 0), (dpFoldY y t).2) := by
      unfold dpFoldY
      rw [List.range'_1_concat, List.foldl_append]
      simp
    have hprev : ∀ j, j ∈ b2jGet y (y.getD t defCh) →
        (if j = 0 then 0 else (dpFoldY y t).1 (j - 1)) + 1 = chainY y t j := by
      intro j hj
      cases t with
      | zero =>
        rw [hj2 (j - 1), if_pos rfl]
        rw [show chainY y 0 j =
          (if j ∈ b2jGet y (y.getD 0 defCh) then 1 else 0) from rfl, if_pos hj]
        split <;> rfl
      | succ t' =>
        rw [hj2 (j - 1), if_neg (Nat.succ_ne_zero t'), Nat.succ_sub_one]
        rw [show chainY y (t' + 1) j =
          (if j ∈ b2jGet y (y.getD (t' + 1) defCh) then
            (if j = 0 then 0 else chainY y t' (j - 1)) + 1 else 0) from rfl,
          if_pos hj]
    have hLn : ∀ j ∈ b2jGet y (y.getD t defCh), j < y.length :=
      fun j hj => (mem_b2jGet.mp hj).2.1
    have hsort : (b2jGet y (y.getD t defCh)).Pairwise (· < ·) := by
      unfold b2jGet
      split
      · exact List.Pairwise.nil
      · unfold b2jIndices
        exact (List.pairwise_lt_range y.length).filter _
    have hphase : t ∈ b2jGet y (y.getD t defCh) ∨
        chainY y t t ≤ (dpFoldY y t).2.2.2 := by
      by_cases h : t ∈ b2jGet y (y.getD t defCh)
      · exact Or.inl h
      · exact Or.inr (by rw [chainY_not_mem h]; exact Nat.zero_le _)
    have happ := dpInner_best y t htlt (dpFoldY y t).1 hprev
      (b2jGet y (y.getD t defCh)) (fun _ => 0)
      (dpFoldY y t).2.1 (dpFoldY y t).2.2.1 (dpFoldY y t).2.2.2
      (fun j hj => hj) hsort hal (le_trans hsum (Nat.le_succ t)) hdom hphase
    have hj2' := dpInner_j2len y.length t (dpFoldY y t).1
      (b2jGet y (y.getD t defCh)) (fun _ => 0)
      (dpFoldY y t).2.1 (dpFoldY y t).2.2.1 (dpFoldY y t).2.2.2 hLn
    refine ⟨?_, ?_, ?_, ?_⟩
    · intro j0
      rw [hfold]
      rw [show ((fun _ : Nat => (0 : Nat)), (dpFoldY y t).2) =
        ((fun _ : Nat => (0 : Nat)), (dpFoldY y t).2.1, (dpFoldY y t).2.2.1,
          (dpFoldY y t).2.2.2) from rfl]
      rw [hj2' j0]
      by_cases hj0 : j0 ∈ b2jGet y (y.getD t defCh)
      · rw [if_pos hj0, hprev j0 hj0, if_neg (Nat.succ_ne_zero t), Nat.succ_sub_one]
      · rw [if_neg hj0, if_neg (Nat.succ_ne_zero t), Nat.succ_sub_one,
          chainY_not_mem hj0]
    · rw [hfold]
      exact happ.1
    · rw [hfold]
      exact happ.2.1
    · rw [hfold]
      exact happ.2.2

theorem dpOuter_diag (y : List Char) :
    ∃ p s, dpOuter y y 0 y.length 0 y.length = (p, p, s) ∧ p + s ≤ y.length := by
  obtain ⟨-, hal, hsum, -⟩ := dpFoldY_inv y y.length (Nat.le_refl _)
  refine ⟨(dpFoldY y y.length).2.1, (dpFoldY y y.length).2.2.2, ?_, hsum⟩
  have heq : dpOuter y y 0 y.length 0 y.length = (dpFoldY y y.length).2 := rfl
  rw [heq]
  rw [show (dpFoldY y y.length).2 = ((dpFoldY y y.length).2.1,
    (dpFoldY y y.length).2.2.1, (dpFoldY y y.length).2.2.2) from rfl, ← hal]

theorem extBack_diag (y : List Char) :
    ∀ p fuel, p ≤ fuel →
      extBack y y 0 0 (fun c => !bjunk c) p p fuel = p := by
  intro p
  induction p with
  | zero =>
    intro fuel _
    cases fuel with
    | zero => rfl
    | succ f =>
      unfold extBack
      rw [if_neg (by simp)]
  | succ p ih =>
    intro fuel hf
    cases fuel with
    | zero => cases hf
    | succ f =>
      unfold extBack
      rw [if_pos ⟨Nat.succ_pos p, Nat.succ_pos p, rfl, rfl⟩, Nat.succ_sub_one]
      rw [ih f (Nat.le_of_succ_le_succ hf)]
      omega

theorem extBack_junk (a b : List Char) (alo blo bi bj fuel : Nat) :
    extBack a b alo blo bjunk bi bj fuel = 0 := by
  cases fuel with
  | zero => rfl
  | succ f =>
    unfold extBack
    rw [if_neg (by simp [bjunk])]

theorem extFwd_diag (y : List Char) :
    ∀ fuel s, s ≤ y.length → y.length - s ≤ fuel →
      extFwd y y y.length y.length (fun c => !bjunk c) 0 0 s fuel =
        y.length - s := by
  intro fuel
  induction fuel with
  | zero =>
    intro s _ hf
    unfold extFwd
    omega
  | succ f ih =>
    intro s hs hf
    by_cases hlt : s < y.length
    · unfold extFwd
      rw [if_pos ⟨by omega, by omega, rfl, rfl⟩]
      rw [ih (s + 1) (by omega) (by omega)]
      omega
    · have : s = y.length := by omega
      subst this
      unfold extFwd
      rw [if_neg (by omega)]
      omega

theorem extFwd_junk (a b : List Char) (ahi bhi bi bj s fuel : Nat) :
    extFwd a b ahi bhi bjunk bi bj s fuel = 0 := by
  cases fuel with
  | zero => rfl
  | succ f =>
    unfold extFwd
    rw [if_neg (by simp [bjunk])]

theorem flm_self (y : List Char) :
    findLongestMatch y y 0 y.length 0 y.length = (0, 0, y.length) := by
  obtain ⟨p, s, heq, hsum⟩ := dpOuter_diag y
  unfold findLongestMatch
  rw [heq]
  dsimp only
  rw [extBack_diag y p p (Nat.le_refl p), Nat.sub_self]
  rw [extFwd_diag y y.length (s + p) (by omega) (by omega)]
  rw [extBack_junk, extFwd_junk]
  refine congrArg (fun k => ((0 : Nat), (0 : Nat), k)) ?_
  omega

theorem matchingSum_self (y : List Char) (hne : y ≠ []) :
    matchingSum y y (y.length + y.length + 1) 0 y.length 0 y.length =
      y.length := by
  have hn : 0 < y.length := List.length_pos.mpr hne
  unfold matchingSum
  rw [flm_self y]
  dsimp only
  rw [if_neg (by omega)]
  rw [if_neg (by omega), if_neg (by omega)]
  omega

theorem ratioQ_self (y : List Char) (hne : y ≠ []) : ratioQ y y = 1 := by
  have hn : 0 < y.length := List.length_pos.mpr hne
  unfold ratioQ
  rw [matchingSum_self y hne]
  rw [if_neg (by omega)]
  rw [Rat.mkRat_eq_div]
  rw [div_eq_one_iff_eq (Nat.cast_ne_zero.mpr (by omega))]
  push_cast
  ring

/-!
### The C4 theorems
-/

/-- C4 counterexample: the similarity scorer is not symmetric.  For
`a = "ab"` and `b = "bacb"`, the matcher finds the two one-character
blocks `a↦a`, `b↦(final)b`, giving ratio `2/3`; with the arguments
swapped, the first longest block `b↦b` leaves no room for a second
block, giving ratio `1/3`. -/
theorem similarity_not_symmetric :
    ¬ (similarity "ab".toList "bacb".toList =
       similarity "bacb".toList "ab".toList) := by
  decide

/-- C4 (amended): the similarity scorer satisfies `score(x, x) == 1.0`
for every non-empty string `x`.  (This holds even when the autojunk
heuristic empties `b2j`: the extension loops of `find_longest_match`
stretch the aligned empty match across the whole sequence.) -/
theorem similarity_self (x : List Char) (hx : x ≠ []) :
    similarity x x = 1 := by
  unfold similarity
  apply ratioQ_self
  simp [pyLower, hx]

/-- Witness for the amended C4 at the concrete non-empty string `abc`. -/
theorem similarity_self_witness :
    "abc".toList ≠ ([] : List Char) ∧ similarity "abc".toList "abc".toList = 1 :=
  ⟨by decide, similarity_self "abc".toList (by decide)⟩

end FolhaCpj
